import Mathlib

/-!
Verification of the flexbi large-file ingestion backend (src/server.py).

The Python source is shallowly embedded: dictionaries become association
lists kept in insertion order, `time.time()` becomes an explicit rational
parameter, and each method of interest becomes a pure Lean function that
mirrors the source line by line.
-/

namespace FlexBi

/-! ## Association-list model of a Python dict (insertion-ordered, unique keys) -/

/-- A Python dict keyed by naturals, modelled as an association list in
insertion order. -/
abbrev Dict (α : Type) := List (Nat × α)

/-- Python `d[k]` / `d.get(k)`: first binding of the key, if any. -/
def lookupKey {α : Type} : Dict α → Nat → Option α
  | [], _ => none
  | (j, a) :: rest, k => if k = j then some a else lookupKey rest k

/-- Python `d[k] = a`: replace in place when the key is present (dicts keep
the original insertion position), otherwise append at the end. -/
def upsert {α : Type} : Dict α → Nat → α → Dict α
  | [], k, a => [(k, a)]
  | (j, b) :: rest, k, a =>
    if k = j then (k, a) :: rest else (j, b) :: upsert rest k a

/-- Python `del d[k]` (all deletes in the source are guarded by a membership
test, so deleting an absent key is a no-op here). -/
def eraseKey {α : Type} : Dict α → Nat → Dict α
  | [], _ => []
  | (j, b) :: rest, k => if k = j then rest else (j, b) :: eraseKey rest k

/-- The key sequence of a dict. -/
def keysOf {α : Type} (d : Dict α) : List Nat := d.map Prod.fst

theorem length_keysOf {α : Type} (d : Dict α) : (keysOf d).length = d.length :=
  List.length_map _ _

theorem lookupKey_isSome_iff_mem {α : Type} (d : Dict α) (k : Nat) :
    (lookupKey d k).isSome ↔ k ∈ keysOf d := by
  induction d with
  | nil => simp [lookupKey, keysOf]
  | cons hd tl ih =>
    obtain ⟨j, a⟩ := hd
    by_cases h : k = j
    · simp [lookupKey, keysOf, h]
    · simp only [keysOf] at ih
      simp [lookupKey, keysOf, h, ih]

theorem lookupKey_eq_none_iff {α : Type} (d : Dict α) (k : Nat) :
    lookupKey d k = none ↔ k ∉ keysOf d := by
  rw [← lookupKey_isSome_iff_mem]
  cases lookupKey d k <;> simp

theorem lookupKey_upsert_self {α : Type} (d : Dict α) (k : Nat) (a : α) :
    lookupKey (upsert d k a) k = some a := by
  induction d with
  | nil => simp [upsert, lookupKey]
  | cons hd tl ih =>
    obtain ⟨j, b⟩ := hd
    by_cases h : k = j <;> simp [upsert, lookupKey, h, ih]

theorem lookupKey_upsert_ne {α : Type} (d : Dict α) (k j : Nat) (a : α)
    (h : j ≠ k) : lookupKey (upsert d k a) j = lookupKey d j := by
  induction d with
  | nil => simp [upsert, lookupKey, h]
  | cons hd tl ih =>
    obtain ⟨i, b⟩ := hd
    by_cases hk : k = i
    · subst hk
      simp [upsert, lookupKey, h]
    · by_cases hj : j = i <;> simp [upsert, lookupKey, hk, hj, ih]

theorem keysOf_upsert {α : Type} (d : Dict α) (k : Nat) (a : α) :
    keysOf (upsert d k a) = if k ∈ keysOf d then keysOf d else keysOf d ++ [k] := by
  induction d with
  | nil => simp [upsert, keysOf]
  | cons hd tl ih =>
    obtain ⟨j, b⟩ := hd
    by_cases h : k = j
    · subst h
      simp [upsert, keysOf]
    · simp only [keysOf] at ih ⊢
      simp only [upsert, if_neg h, List.map_cons, ih]
      by_cases hm : k ∈ List.map Prod.fst tl <;> simp [hm, h]

theorem length_upsert {α : Type} (d : Dict α) (k : Nat) (a : α) :
    (upsert d k a).length = if k ∈ keysOf d then d.length else d.length + 1 := by
  have h := congrArg List.length (keysOf_upsert d k a)
  rw [length_keysOf] at h
  by_cases hm : k ∈ keysOf d <;> simp [hm] at h <;> simp [hm, h, ← length_keysOf]

theorem keysOf_eraseKey {α : Type} (d : Dict α) (k : Nat) :
    keysOf (eraseKey d k) = (keysOf d).erase k := by
  induction d with
  | nil => simp [eraseKey, keysOf]
  | cons hd tl ih =>
    obtain ⟨j, b⟩ := hd
    by_cases h : k = j
    · subst h
      simp [eraseKey, keysOf, List.erase_cons_head]
    · have hjk : (j == k) = false := by
        simp [Ne.symm h]
      simp only [keysOf] at ih ⊢
      simp [eraseKey, h, List.erase_cons, hjk, ih]

theorem eraseKey_sublist {α : Type} (d : Dict α) (k : Nat) :
    (eraseKey d k).Sublist d := by
  induction d with
  | nil => simp [eraseKey]
  | cons hd tl ih =>
    obtain ⟨j, b⟩ := hd
    by_cases h : k = j
    · simp [eraseKey, h]
    · simpa [eraseKey, h] using ih.cons₂ (j, b)

theorem nodup_keysOf_upsert {α : Type} (d : Dict α) (k : Nat) (a : α)
    (h : (keysOf d).Nodup) : (keysOf (upsert d k a)).Nodup := by
  rw [keysOf_upsert]
  by_cases hm : k ∈ keysOf d
  · simpa [hm]
  · simp only [hm, if_false]
    simpa [List.nodup_append] using ⟨h, hm⟩

/-! ## AdvancedCache (src/server.py lines 105-152)

Keys and values are abstracted to naturals; timestamps from `time.time()`
are rationals. A cache entry is a value together with its write time. -/

/-- Cached value paired with its insertion timestamp (line 130 stores the
pair `(value, current_time)`). -/
abbrev Entry := Nat × ℚ

/-- State of one `AdvancedCache` object: the `cache` dict, the
`access_times` deque (oldest first), `max_size` and `ttl`. -/
structure CacheState where
  cache : Dict Entry
  accessTimes : List (Nat × ℚ)
  maxSize : Nat
  ttl : ℚ
deriving DecidableEq

/-- `AdvancedCache.get` (lines 117-125): a hit when the entry is strictly
younger than `ttl`; an entry at or past its ttl is deleted and `None`
returned. Returns the Python return value and the state after the call. -/
def cacheGet (st : CacheState) (now : ℚ) (key : Nat) : Option Nat × CacheState :=
  match lookupKey st.cache key with
  | none => (none, st)
  | some (v, ts) =>
    if now - ts < st.ttl then (some v, st)
    else (none, { st with cache := eraseKey st.cache key })

/-- Lines 140-145 of `_cleanup`: delete every entry with
`current_time - t > self.ttl`. -/
def removeExpired (now ttl : ℚ) (c : Dict Entry) : Dict Entry :=
  c.filter (fun e => decide (now - e.2.2 ≤ ttl))

/-- Lines 147-152 of `_cleanup`: while the entry count exceeds
`max_size * 0.8`, pop the oldest `access_times` element and delete that key
if still cached. (With an empty deque and the count still above the
watermark the Python loop would spin forever; that configuration is shown
unreachable below.) Returns the cache and the remaining deque. -/
def evictLoop (maxSize : Nat) : List (Nat × ℚ) → Dict Entry → Dict Entry × List (Nat × ℚ)
  | deque, c =>
    if (c.length : ℚ) ≤ (maxSize : ℚ) * (8 / 10) then (c, deque)
    else
      match deque with
      | [] => (c, [])
      | (k, _) :: rest => evictLoop maxSize rest (eraseKey c k)

/-- `AdvancedCache._cleanup` (lines 137-152). -/
def cacheCleanup (st : CacheState) (now : ℚ) : CacheState :=
  let c1 := removeExpired now st.ttl st.cache
  let p := evictLoop st.maxSize st.accessTimes c1
  { st with cache := p.1, accessTimes := p.2 }

/-- `AdvancedCache.set` (lines 127-135): write the `(value, now)` pair,
append `(key, now)` to `access_times`, and run `_cleanup` when the entry
count exceeds `max_size`. -/
def cacheSet (st : CacheState) (now : ℚ) (key v : Nat) : CacheState :=
  let st1 : CacheState :=
    { st with
      cache := upsert st.cache key (v, now)
      accessTimes := st.accessTimes ++ [(key, now)] }
  if st1.cache.length > st.maxSize then cacheCleanup st1 now else st1

/-- Representation invariant of `AdvancedCache`: the cached keys are free of
duplicates and every cached key has at least one `access_times` entry. -/
def CacheInv (st : CacheState) : Prop :=
  (keysOf st.cache).Nodup ∧
    ∀ k, k ∈ keysOf st.cache → k ∈ st.accessTimes.map Prod.fst

theorem removeExpired_sublist (now ttl : ℚ) (c : Dict Entry) :
    (removeExpired now ttl c).Sublist c :=
  List.filter_sublist c

theorem keysOf_sublist_of_sublist {α : Type} {c d : Dict α} (h : c.Sublist d) :
    (keysOf c).Sublist (keysOf d) :=
  h.map Prod.fst

/-- Behaviour of the oldest-first eviction loop on any cache whose keys are
duplicate-free and all present in the deque: it only ever removes entries
(the result is a sublist of the input), it always reaches the
`0.8 * max_size` watermark, every surviving key still has a deque entry,
and the deque only shrinks from the front. -/
theorem evictLoop_spec (m : Nat) (deque : List (Nat × ℚ)) :
    ∀ c : Dict Entry,
      (keysOf c).Nodup →
      (∀ k ∈ keysOf c, k ∈ deque.map Prod.fst) →
      (evictLoop m deque c).1.Sublist c ∧
        (((evictLoop m deque c).1.length : ℚ) ≤ (m : ℚ) * (8 / 10)) ∧
        (∀ k ∈ keysOf (evictLoop m deque c).1,
          k ∈ ((evictLoop m deque c).2).map Prod.fst) ∧
        ∃ n, (evictLoop m deque c).2 = deque.drop n := by
  induction deque with
  | nil =>
    intro c hnd hsub
    have hc : c = [] := by
      cases c with
      | nil => rfl
      | cons e tl =>
        exact absurd (hsub e.1 (by simp [keysOf])) (by simp)
    subst hc
    have hb : ((List.length ([] : Dict Entry) : ℚ) ≤ (m : ℚ) * (8 / 10)) := by
      simp only [List.length_nil, Nat.cast_zero]
      positivity
    rw [evictLoop, if_pos hb]
    refine ⟨List.Sublist.refl _, hb, ?_, 0, rfl⟩
    intro k hk
    simp [keysOf] at hk
  | cons hd rest ih =>
    intro c hnd hsub
    obtain ⟨k, t⟩ := hd
    by_cases hlen : ((c.length : ℚ) ≤ (m : ℚ) * (8 / 10))
    · rw [evictLoop, if_pos hlen]
      exact ⟨List.Sublist.refl _, hlen, hsub, 0, rfl⟩
    · rw [evictLoop, if_neg hlen]
      have hnd2 : (keysOf (eraseKey c k)).Nodup := by
        rw [keysOf_eraseKey]; exact hnd.erase k
      have hsub2 : ∀ j ∈ keysOf (eraseKey c k), j ∈ rest.map Prod.fst := by
        intro j hj
        rw [keysOf_eraseKey] at hj
        have hjk : j ≠ k := (List.Nodup.mem_erase_iff hnd).mp hj |>.1
        have hjc : j ∈ keysOf c := (List.Nodup.mem_erase_iff hnd).mp hj |>.2
        have := hsub j hjc
        simp only [List.map_cons, List.mem_cons] at this
        exact this.resolve_left hjk
      obtain ⟨h1, h2, h3, n, h4⟩ := ih (eraseKey c k) hnd2 hsub2
      exact ⟨h1.trans (eraseKey_sublist c k), h2, h3, n + 1, by simpa using h4⟩

/-- The cleanup pass preserves the representation invariant and always
leaves the entry count at or below the `0.8 * max_size` watermark. -/
theorem cacheCleanup_spec (st : CacheState) (now : ℚ) (h : CacheInv st) :
    CacheInv (cacheCleanup st now) ∧
      (((cacheCleanup st now).cache.length : ℚ) ≤ (st.maxSize : ℚ) * (8 / 10)) ∧
      (cacheCleanup st now).cache.Sublist (removeExpired now st.ttl st.cache) ∧
      ∃ n, (cacheCleanup st now).accessTimes = st.accessTimes.drop n := by
  obtain ⟨hnd, hmem⟩ := h
  have hs : (removeExpired now st.ttl st.cache).Sublist st.cache :=
    removeExpired_sublist now st.ttl st.cache
  have hnd1 : (keysOf (removeExpired now st.ttl st.cache)).Nodup :=
    (keysOf_sublist_of_sublist hs).nodup hnd
  have hsub1 : ∀ k ∈ keysOf (removeExpired now st.ttl st.cache),
      k ∈ st.accessTimes.map Prod.fst := by
    intro k hk
    exact hmem k ((keysOf_sublist_of_sublist hs).mem hk)
  obtain ⟨h1, h2, h3, n, h4⟩ :=
    evictLoop_spec st.maxSize st.accessTimes (removeExpired now st.ttl st.cache) hnd1 hsub1
  refine ⟨⟨?_, ?_⟩, h2, h1, n, h4⟩
  · exact (keysOf_sublist_of_sublist (h1.trans hs)).nodup hnd
  · simpa [cacheCleanup] using h3

/-- Claim C9: the cache invariant — every cached key has at least one
`access_times` entry (and cached keys are duplicate-free) — is preserved by
`get`, `set` and `_cleanup`; under it the oldest-first eviction loop always
reaches the watermark, leaving the entry count at or below
`0.8 * max_size`. -/
theorem cache_invariant_preserved (st : CacheState) (now : ℚ) (key v : Nat)
    (h : CacheInv st) :
    CacheInv (cacheGet st now key).2 ∧
      CacheInv (cacheSet st now key v) ∧
      CacheInv (cacheCleanup st now) ∧
      (((cacheCleanup st now).cache.length : ℚ) ≤ (st.maxSize : ℚ) * (8 / 10)) := by
  obtain ⟨hnd, hmem⟩ := h
  refine ⟨?_, ?_, (cacheCleanup_spec st now ⟨hnd, hmem⟩).1,
    (cacheCleanup_spec st now ⟨hnd, hmem⟩).2.1⟩
  · unfold cacheGet
    cases hlk : lookupKey st.cache key with
    | none => exact ⟨hnd, hmem⟩
    | some e =>
      obtain ⟨v0, t0⟩ := e
      by_cases ht : now - t0 < st.ttl
      · simp only [ht, if_true]
        exact ⟨hnd, hmem⟩
      · simp only [ht, if_false]
        refine ⟨?_, ?_⟩
        · rw [keysOf_eraseKey]; exact hnd.erase key
        · intro k hk
          rw [keysOf_eraseKey] at hk
          exact hmem k ((List.Nodup.mem_erase_iff hnd).mp hk).2
  · have hstep : CacheInv
        { st with
          cache := upsert st.cache key (v, now)
          accessTimes := st.accessTimes ++ [(key, now)] } := by
      refine ⟨nodup_keysOf_upsert _ _ _ hnd, ?_⟩
      intro k hk
      rw [keysOf_upsert] at hk
      by_cases hm : key ∈ keysOf st.cache
      · simp only [hm, if_true] at hk
        simp only [List.map_append, List.mem_append]
        exact Or.inl (hmem k hk)
      · simp only [hm, if_false, List.mem_append, List.mem_singleton] at hk
        simp only [List.map_append, List.mem_append]
        rcases hk with hk | hk
        · exact Or.inl (hmem k hk)
        · subst hk; simp
    unfold cacheSet
    by_cases hover :
        (upsert st.cache key (v, now)).length > st.maxSize
    · simp only [hover, if_true]
      exact (cacheCleanup_spec _ now hstep).1
    · simp only [hover, if_false]
      exact hstep

/-- Claim C5: when an insert pushes the entry count above `max_size`, the
cleanup pass first drops all expired entries, then evicts in deque
(insertion) order; the final count is at or below `0.8 * max_size`, no
expired entry survives, the surviving entries are a sublist of the
expiry-filtered post-insert cache, and the deque only lost a front
segment. -/
theorem cache_insert_cleanup (st : CacheState) (now : ℚ) (key v : Nat)
    (hinv : CacheInv st)
    (hover : (upsert st.cache key (v, now)).length > st.maxSize) :
    (((cacheSet st now key v).cache.length : ℚ) ≤ (st.maxSize : ℚ) * (8 / 10)) ∧
      (∀ e ∈ (cacheSet st now key v).cache, now - e.2.2 ≤ st.ttl) ∧
      (cacheSet st now key v).cache.Sublist
        (removeExpired now st.ttl (upsert st.cache key (v, now))) ∧
      ∃ n, (cacheSet st now key v).accessTimes =
        (st.accessTimes ++ [(key, now)]).drop n := by
  obtain ⟨hnd, hmem⟩ := hinv
  have hstep : CacheInv
      { st with
        cache := upsert st.cache key (v, now)
        accessTimes := st.accessTimes ++ [(key, now)] } := by
    refine ⟨nodup_keysOf_upsert _ _ _ hnd, ?_⟩
    intro k hk
    rw [keysOf_upsert] at hk
    by_cases hm : key ∈ keysOf st.cache
    · simp only [hm, if_true] at hk
      simp only [List.map_append, List.mem_append]
      exact Or.inl (hmem k hk)
    · simp only [hm, if_false, List.mem_append, List.mem_singleton] at hk
      simp only [List.map_append, List.mem_append]
      rcases hk with hk | hk
      · exact Or.inl (hmem k hk)
      · subst hk; simp
  have hset : cacheSet st now key v =
      cacheCleanup
        { st with
          cache := upsert st.cache key (v, now)
          accessTimes := st.accessTimes ++ [(key, now)] } now := by
    unfold cacheSet
    simp only [hover, if_true]
  obtain ⟨_, h2, h3, n, h4⟩ := cacheCleanup_spec _ now hstep
  rw [hset]
  refine ⟨h2, ?_, h3, n, h4⟩
  intro e he
  have := h3.mem he
  simp only [removeExpired, List.mem_filter, decide_eq_true_eq] at this
  exact this.2

/-- Claim C4: an entry whose stored timestamp is `T` is returned by `get`
at any time strictly before `T + ttl`, and is absent (and deleted) at any
time at or after `T + ttl`. -/
theorem cache_ttl_get (st : CacheState) (now T : ℚ) (key v : Nat)
    (hlk : lookupKey st.cache key = some (v, T)) :
    (now < T + st.ttl → cacheGet st now key = (some v, st)) ∧
      (T + st.ttl ≤ now →
        cacheGet st now key = (none, { st with cache := eraseKey st.cache key })) := by
  constructor
  · intro hfresh
    unfold cacheGet
    rw [hlk]
    have : now - T < st.ttl := by linarith
    simp [this]
  · intro hold
    unfold cacheGet
    rw [hlk]
    have : ¬ (now - T < st.ttl) := by linarith
    simp [this]

/-- Concrete witness for claim C4: key 1 inserted at time 0 with ttl 5 is
retrievable at time 3 and absent at time 5. -/
theorem cache_ttl_get_witness :
    cacheGet ⟨[(1, (7, 0))], [(1, 0)], 10, 5⟩ 3 1 =
        (some 7, ⟨[(1, (7, 0))], [(1, 0)], 10, 5⟩) ∧
      (cacheGet ⟨[(1, (7, 0))], [(1, 0)], 10, 5⟩ 5 1).1 = none := by
  constructor
  · exact (cache_ttl_get ⟨[(1, (7, 0))], [(1, 0)], 10, 5⟩ 3 0 1 7 rfl).1 (by norm_num)
  · rw [(cache_ttl_get ⟨[(1, (7, 0))], [(1, 0)], 10, 5⟩ 5 0 1 7 rfl).2 (by norm_num)]

/-- Concrete witness for claim C5: with `max_size = 1`, inserting a second
fresh entry triggers a cleanup that leaves the entry count at 0, which is
at or below the watermark 0.8. -/
theorem cache_insert_cleanup_witness :
    (((cacheSet ⟨[(1, (10, 0))], [(1, 0)], 1, 100⟩ 0 2 20).cache.length : ℚ) ≤
      ((1 : Nat) : ℚ) * (8 / 10)) := by
  exact (cache_insert_cleanup ⟨[(1, (10, 0))], [(1, 0)], 1, 100⟩ 0 2 20
    ⟨by decide, by decide⟩ (by decide)).1

/-- Concrete witness for claim C9: invariant preservation applied at a
small concrete cache state. -/
theorem cache_invariant_preserved_witness :
    CacheInv (cacheGet ⟨[(1, (10, 0))], [(1, 0)], 2, 100⟩ 0 1).2 := by
  exact (cache_invariant_preserved ⟨[(1, (10, 0))], [(1, 0)], 2, 100⟩ 0 1 5
    ⟨by decide, by decide⟩).1

/-! ## Chunk store (`upload_file_chunk`, src/server.py lines 1282-1334)

A chunk file's contents is a list of byte values; a staging directory is
the dict from chunk index to persisted bytes (the files `chunk_0000`,
`chunk_0001`, ... named by their index). `none` for the directory means it
does not exist (deleted by `shutil.rmtree` or never created). -/

/-- Raw file contents, as a byte list. -/
abbrev Bytes := List Nat

/-- The per-`file_id` staging directory: chunk index to chunk bytes. -/
abbrev ChunkDir := Dict Bytes

/-- The JSON body returned by POST /api/upload/chunk: either the
`chunk_received` shape of lines 1325-1331, the `complete` shape of lines
1318-1323 (carrying the assembled artifact), or an HTTP 500 from the
`except` handler of line 1333. -/
inductive ChunkResponse where
  | chunkReceived (chunkIndex totalChunks uploadedChunks : Nat) (progress : ℚ)
  | complete (filePath : String) (contents : Bytes) (readyForProcessing : Bool)
  | serverError
deriving DecidableEq

/-- Lines 1309-1313: read the chunk files for indices `0 .. total-1` in
ascending order; a missing index raises (`none`). -/
def readChunks (d : ChunkDir) : List Nat → Option (List Bytes)
  | [] => some []
  | i :: rest =>
    match lookupKey d i with
    | none => none
    | some b => (readChunks d rest).map (b :: ·)

/-- Concatenation of the chunk files in strict ascending index order. -/
def assembleChunks (d : ChunkDir) (total : Nat) : Option Bytes :=
  (readChunks d (List.range total)).map List.flatten

/-- `upload_file_chunk` (lines 1292-1331): persist the chunk under its
index (a retransmission overwrites), count the persisted chunks, and on
completeness concatenate them in ascending index order and delete the
staging directory. Returns the response and the staging directory after
the call. -/
def putChunk (st : Option ChunkDir) (idx : Nat) (data : Bytes) (total : Nat)
    (filename : String) : ChunkResponse × Option ChunkDir :=
  let d := st.getD []
  let d1 := upsert d idx data
  let uploaded := d1.length
  if uploaded = total then
    match assembleChunks d1 total with
    | some contents => (ChunkResponse.complete filename contents true, none)
    | none => (ChunkResponse.serverError, some d1)
  else
    (ChunkResponse.chunkReceived idx total uploaded
      ((uploaded : ℚ) / (total : ℚ) * 100), some d1)

/-- Sequential upload of the chunks of the file `cs` (chunk `i` of the
split file is `cs[i]`) in arrival order `order`; collects all responses. -/
def runChunks (cs : List Bytes) (filename : String) (order : List Nat) :
    Option ChunkDir × List ChunkResponse :=
  order.foldl
    (fun acc i =>
      let r := putChunk acc.1 i (cs.getD i []) cs.length filename
      (r.2, acc.2 ++ [r.1]))
    (none, [])

/-- The delivered indices cover every chunk of an `N`-chunk file. -/
def coversAll (N : Nat) (l : List Nat) : Prop := ∀ i, i < N → i ∈ l

instance coversAllDec (N : Nat) (l : List Nat) : Decidable (coversAll N l) :=
  Nat.decidableBallLT N fun i _ => i ∈ l

/-- Invariant of a staging directory before reassembly: exactly the
delivered indices are persisted, each file holding its chunk of the split
file `cs`, with no index stored twice. -/
def GoodDir (cs : List Bytes) (seen : List Nat) (d : ChunkDir) : Prop :=
  (∀ i, lookupKey d i = if i ∈ seen then some (cs.getD i []) else none) ∧
    (keysOf d).Nodup

theorem goodDir_nil (cs : List Bytes) : GoodDir cs [] [] := by
  constructor
  · intro i
    simp [lookupKey]
  · simp [keysOf]

theorem goodDir_upsert (cs : List Bytes) (seen : List Nat) (d : ChunkDir)
    (i : Nat) (h : GoodDir cs seen d) :
    GoodDir cs (seen ++ [i]) (upsert d i (cs.getD i [])) := by
  obtain ⟨hlk, hnd⟩ := h
  refine ⟨?_, nodup_keysOf_upsert _ _ _ hnd⟩
  intro j
  by_cases hj : j = i
  · subst hj
    rw [lookupKey_upsert_self]
    simp
  · rw [lookupKey_upsert_ne _ _ _ _ hj, hlk j]
    simp [hj]

theorem goodDir_mem_keys (cs : List Bytes) (seen : List Nat) (d : ChunkDir)
    (h : GoodDir cs seen d) (j : Nat) : j ∈ keysOf d ↔ j ∈ seen := by
  rw [← lookupKey_isSome_iff_mem, h.1 j]
  by_cases hj : j ∈ seen <;> simp [hj]

theorem goodDir_length (cs : List Bytes) (seen : List Nat) (d : ChunkDir)
    (h : GoodDir cs seen d) : d.length = seen.toFinset.card := by
  have hset : (keysOf d).toFinset = seen.toFinset := by
    ext j
    simp only [List.mem_toFinset]
    exact goodDir_mem_keys cs seen d h j
  calc d.length = (keysOf d).length := (length_keysOf d).symm
    _ = (keysOf d).toFinset.card := (List.toFinset_card_of_nodup h.2).symm
    _ = seen.toFinset.card := by rw [hset]

theorem readChunks_all (d : ChunkDir) (f : Nat → Bytes) (l : List Nat)
    (h : ∀ i ∈ l, lookupKey d i = some (f i)) :
    readChunks d l = some (l.map f) := by
  induction l with
  | nil => simp [readChunks]
  | cons hd tl ih =>
    rw [readChunks, h hd (by simp), ih (fun i hi => h i (by simp [hi]))]
    simp

theorem map_range_getD (l : List Bytes) :
    (List.range l.length).map (fun i => l.getD i []) = l := by
  apply List.ext_getElem
  · simp
  · intro i h1 h2
    simp only [List.getElem_map, List.getElem_range]
    exact List.getD_eq_getElem l [] h2

theorem goodDir_assemble (cs : List Bytes) (seen : List Nat) (d : ChunkDir)
    (h : GoodDir cs seen d) (hall : coversAll cs.length seen) :
    assembleChunks d cs.length = some cs.flatten := by
  have hread : readChunks d (List.range cs.length) =
      some ((List.range cs.length).map (fun i => cs.getD i [])) := by
    apply readChunks_all
    intro i hi
    rw [h.1 i, if_pos (hall i (List.mem_range.mp hi))]
  rw [assembleChunks, hread]
  simp only [Option.map_some']
  rw [map_range_getD]

theorem runChunks_concat (cs : List Bytes) (fn : String) (order : List Nat)
    (i : Nat) :
    runChunks cs fn (order ++ [i]) =
      ((putChunk (runChunks cs fn order).1 i (cs.getD i []) cs.length fn).2,
        (runChunks cs fn order).2 ++
          [(putChunk (runChunks cs fn order).1 i (cs.getD i []) cs.length fn).1]) := by
  unfold runChunks
  rw [List.foldl_append]
  rfl

/-- Prefix invariant of a chunk-upload run: as long as no prefix of the
arrival order covers all indices, the staging directory holds exactly the
delivered chunks and every response so far was `chunk_received`. -/
theorem runChunks_partial (cs : List Bytes) (fn : String) (order : List Nat)
    (hbound : ∀ j ∈ order, j < cs.length) :
    ∀ m, m ≤ order.length →
      (∀ m', m' ≤ m → ¬ coversAll cs.length (order.take m')) →
      GoodDir cs (order.take m) ((runChunks cs fn (order.take m)).1.getD []) ∧
        ∀ r ∈ (runChunks cs fn (order.take m)).2,
          ∃ ci tc u p, r = ChunkResponse.chunkReceived ci tc u p := by
  intro m
  induction m with
  | zero =>
    intro _ _
    constructor
    · simpa [runChunks] using goodDir_nil cs
    · intro r hr
      simp [runChunks] at hr
  | succ m ih =>
    intro hm hnc
    have hmlt : m < order.length := hm
    have hts : order.take (m + 1) = order.take m ++ [order[m]] := by
      rw [List.take_succ, List.getElem?_eq_getElem hmlt]
      rfl
    obtain ⟨hgd, hresp⟩ := ih (Nat.le_of_lt hmlt)
      (fun m' hm' => hnc m' (Nat.le_succ_of_le hm'))
    have hgd1 : GoodDir cs (order.take (m + 1))
        (upsert ((runChunks cs fn (order.take m)).1.getD []) order[m]
          (cs.getD order[m] [])) := by
      rw [hts]
      exact goodDir_upsert cs _ _ _ hgd
    have hlen : (upsert ((runChunks cs fn (order.take m)).1.getD []) order[m]
        (cs.getD order[m] [])).length ≠ cs.length := by
      rw [goodDir_length cs _ _ hgd1]
      have hsub : (order.take (m + 1)).toFinset ⊆ Finset.range cs.length := by
        intro j hj
        simp only [List.mem_toFinset] at hj
        exact Finset.mem_range.mpr (hbound j (List.mem_of_mem_take hj))
      have hne : ¬ coversAll cs.length (order.take (m + 1)) :=
        hnc (m + 1) (Nat.le_refl _)
      have hss : (order.take (m + 1)).toFinset ⊂ Finset.range cs.length := by
        refine ⟨hsub, fun hcon => hne ?_⟩
        intro i hi
        have := hcon (Finset.mem_range.mpr hi)
        simpa using this
      have := Finset.card_lt_card hss
      rw [Finset.card_range] at this
      omega
    rw [hts, runChunks_concat]
    constructor
    · unfold putChunk
      simp only [hlen, if_false]
      simpa [← hts] using hgd1
    · intro r hr
      rw [List.mem_append] at hr
      rcases hr with hr | hr
      · exact hresp r hr
      · rw [List.mem_singleton] at hr
        subst hr
        unfold putChunk
        simp only [hlen, if_false]
        exact ⟨_, _, _, _, rfl⟩

/-- Claim C1: a file split into N chunks, delivered in any order (indices
may repeat: a retransmission overwrites), is reassembled at the first call
at which all N chunks are present; the artifact equals the concatenation of
the chunks in strict ascending index order, which is the original file, the
staging directory is deleted, and every earlier call answered
`chunk_received`. -/
theorem chunk_upload_reassembly (cs : List Bytes) (fn : String)
    (order : List Nat) (hN : 0 < cs.length)
    (hbound : ∀ j ∈ order, j < cs.length)
    (hall : coversAll cs.length order) :
    ∃ k, k < order.length ∧
      (runChunks cs fn (order.take (k + 1))).1 = none ∧
      (runChunks cs fn (order.take (k + 1))).2.getLast? =
        some (ChunkResponse.complete fn cs.flatten true) ∧
      ∀ r ∈ (runChunks cs fn (order.take k)).2,
        ∃ ci tc u p, r = ChunkResponse.chunkReceived ci tc u p := by
  have hex : ∃ m, coversAll cs.length (order.take m) :=
    ⟨order.length, by simpa [List.take_length] using hall⟩
  have hk1P : coversAll cs.length (order.take (Nat.find hex)) := Nat.find_spec hex
  have hk1min : ∀ m, m < Nat.find hex → ¬ coversAll cs.length (order.take m) :=
    fun m hm => Nat.find_min hex hm
  have hk1pos : 0 < Nat.find hex := by
    rcases Nat.eq_zero_or_pos (Nat.find hex) with h0 | h0
    · exfalso
      have := hk1P
      rw [h0] at this
      exact absurd (this 0 hN) (by simp)
    · exact h0
  have hk1le : Nat.find hex ≤ order.length :=
    Nat.find_min' hex (by simpa [List.take_length] using hall)
  refine ⟨Nat.find hex - 1, by omega, ?_⟩
  have hsucc : Nat.find hex - 1 + 1 = Nat.find hex := by omega
  obtain ⟨hgd, hresp⟩ := runChunks_partial cs fn order hbound (Nat.find hex - 1)
    (by omega) (fun m' hm' => hk1min m' (by omega))
  have hmlt : Nat.find hex - 1 < order.length := by omega
  have hts : order.take (Nat.find hex) =
      order.take (Nat.find hex - 1) ++ [order[Nat.find hex - 1]] := by
    conv_lhs => rw [← hsucc]
    rw [List.take_succ, List.getElem?_eq_getElem hmlt]
    rfl
  have hgd1 : GoodDir cs (order.take (Nat.find hex))
      (upsert ((runChunks cs fn (order.take (Nat.find hex - 1))).1.getD [])
        order[Nat.find hex - 1] (cs.getD order[Nat.find hex - 1] [])) := by
    rw [hts]
    exact goodDir_upsert cs _ _ _ hgd
  have hcard : (order.take (Nat.find hex)).toFinset = Finset.range cs.length := by
    apply Finset.Subset.antisymm
    · intro j hj
      simp only [List.mem_toFinset] at hj
      exact Finset.mem_range.mpr (hbound j (List.mem_of_mem_take hj))
    · intro j hj
      simp only [List.mem_toFinset]
      exact hk1P j (Finset.mem_range.mp hj)
  have hlen : (upsert ((runChunks cs fn (order.take (Nat.find hex - 1))).1.getD [])
      order[Nat.find hex - 1] (cs.getD order[Nat.find hex - 1] [])).length =
      cs.length := by
    rw [goodDir_length cs _ _ hgd1, hcard, Finset.card_range]
  have hassemble := goodDir_assemble cs _ _ hgd1 hk1P
  rw [hsucc, hts, runChunks_concat]
  unfold putChunk
  simp only [hlen, eq_self_iff_true, if_true, hassemble]
  exact ⟨trivial, Eq.trans (List.getLast?_concat _) rfl, hresp⟩

/-- Witness for claim C1: a 2-chunk file delivered in order 1, 0 is
reassembled into the original file on the second call. -/
theorem chunk_upload_reassembly_witness :
    ∃ k, k < ([1, 0] : List Nat).length ∧
      (runChunks [[1], [2]] "w" (([1, 0] : List Nat).take (k + 1))).1 = none ∧
      (runChunks [[1], [2]] "w" (([1, 0] : List Nat).take (k + 1))).2.getLast? =
        some (ChunkResponse.complete "w" ([[1], [2]] : List Bytes).flatten true) ∧
      ∀ r ∈ (runChunks [[1], [2]] "w" (([1, 0] : List Nat).take k)).2,
        ∃ ci tc u p, r = ChunkResponse.chunkReceived ci tc u p :=
  chunk_upload_reassembly [[1], [2]] "w" [1, 0] (by decide) (by decide) (by decide)

/-! ## The completeness-check race (claim C3)

`upload_file_chunk` holds no lock between persisting a chunk, counting the
staged chunk files (line 1303), writing the final artifact (lines
1307-1313) and removing the staging directory (line 1316). Concurrent
requests for the same `file_id` interleave at every `await`. Each request
is a list of atomic micro-operations; after a completeness check that
observes `count == total` the request continues with an assembly pass and
a cleanup. -/

/-- One atomic step of a chunk-upload request. -/
inductive MicroOp where
  | writeChunk (idx : Nat) (data : Bytes)
  | checkComplete (total : Nat)
  | assemblePass (total : Nat)
  | cleanupPass
deriving DecidableEq

/-- Shared state of the staging area plus counters of what happened:
completed final-artifact write passes, successful `rmtree` calls, and
`rmtree` calls that raised because the directory was already gone. -/
structure ConcState where
  dir : Option ChunkDir
  assemblies : Nat
  cleanups : Nat
  cleanupErrors : Nat
deriving DecidableEq

/-- Execute one micro-operation; returns the new shared state and the
micro-operations the request still has to run because of this step
(an observed completeness check schedules assembly then cleanup).
A completeness check on a missing directory counts zero files, as
`Path.glob` on a non-existent directory yields nothing. -/
def execOp (s : ConcState) : MicroOp → ConcState × List MicroOp
  | MicroOp.writeChunk i b =>
    ({ s with dir := some (upsert (s.dir.getD []) i b) }, [])
  | MicroOp.checkComplete total =>
    if (s.dir.getD []).length = total then
      (s, [MicroOp.assemblePass total, MicroOp.cleanupPass])
    else (s, [])
  | MicroOp.assemblePass _ =>
    ({ s with assemblies := s.assemblies + 1 }, [])
  | MicroOp.cleanupPass =>
    match s.dir with
    | some _ => ({ s with dir := none, cleanups := s.cleanups + 1 }, [])
    | none => ({ s with cleanupErrors := s.cleanupErrors + 1 }, [])

/-- Run a schedule: each entry names the request whose next pending
micro-operation executes (a request with nothing pending is skipped). -/
def runSched : List Nat → List (List MicroOp) → ConcState → ConcState
  | [], _, s => s
  | r :: sched, progs, s =>
    match progs.getD r [] with
    | [] => runSched sched progs s
    | op :: rest =>
      let p := execOp s op
      runSched sched (progs.set r (rest ++ p.2)) p.1

/-- The two racing requests that together complete a 2-chunk upload. -/
def raceRequests : List (List MicroOp) :=
  [[MicroOp.writeChunk 0 [1], MicroOp.checkComplete 2],
   [MicroOp.writeChunk 1 [2], MicroOp.checkComplete 2]]

/-- Claim C3 evaluated on the code: when both writes land before either
completeness check (schedule 0,1,0,1,...), both checks observe
completeness, the artifact is assembled twice, and the second cleanup hits
a missing directory (the `shutil.rmtree` raises, surfacing as HTTP 500);
a serialized schedule assembles exactly once. The check-and-trigger is not
atomic. -/
theorem chunk_race_double_assembly :
    (runSched [0, 1, 0, 1, 0, 0, 1, 1] raceRequests ⟨none, 0, 0, 0⟩).assemblies = 2 ∧
      (runSched [0, 1, 0, 1, 0, 0, 1, 1] raceRequests ⟨none, 0, 0, 0⟩).cleanups = 1 ∧
      (runSched [0, 1, 0, 1, 0, 0, 1, 1] raceRequests ⟨none, 0, 0, 0⟩).cleanupErrors = 1 ∧
      (runSched [0, 0, 1, 1, 1, 1] raceRequests ⟨none, 0, 0, 0⟩).assemblies = 1 := by
  decide

/-- Claim C8: any call answered with `chunk_received` reports progress
`(received / total) * 100`, echoes the chunk index and total, and only
happens when the count differs from the total; and a 3-chunk file uploaded
in arrival order 2, 0, 1 produces two `chunk_received` responses (progress
100/3 and 200/3) followed by a single `complete` response with
`ready_for_processing = true` and the assembled artifact, the staging
directory being gone afterwards. -/
theorem putChunk_chunkReceived_progress :
    (∀ (st : Option ChunkDir) (idx : Nat) (data : Bytes) (total : Nat)
      (fn : String) (ci tc u : Nat) (p : ℚ) (st2 : Option ChunkDir),
      putChunk st idx data total fn = (ChunkResponse.chunkReceived ci tc u p, st2) →
      p = (u : ℚ) / (tc : ℚ) * 100 ∧ ci = idx ∧ tc = total ∧ u ≠ total) ∧
    runChunks [[10], [20], [30]] "f" [2, 0, 1] =
      (none,
        [ChunkResponse.chunkReceived 2 3 1 (100 / 3),
         ChunkResponse.chunkReceived 0 3 2 (200 / 3),
         ChunkResponse.complete "f" [10, 20, 30] true]) := by
  constructor
  · intro st idx data total fn ci tc u p st2 h
    unfold putChunk at h
    by_cases he : (upsert (st.getD []) idx data).length = total
    · simp only [he, if_true] at h
      cases ha : assembleChunks (upsert (st.getD []) idx data) total with
      | none => rw [ha] at h; simp at h
      | some c => rw [ha] at h; simp at h
    · simp only [he, if_false, Prod.mk.injEq, ChunkResponse.chunkReceived.injEq] at h
      obtain ⟨⟨h1, h2, h3, h4⟩, _⟩ := h
      subst h1; subst h2; subst h3; subst h4
      exact ⟨rfl, rfl, rfl, he⟩
  · have hr : List.range 3 = [0, 1, 2] := rfl
    simp only [runChunks, List.foldl_cons, List.foldl_nil, putChunk, assembleChunks,
      readChunks, upsert, lookupKey, hr, List.length]
    norm_num [upsert, lookupKey, readChunks]

/-- Witness for claim C8: the general progress law applied to the concrete
first call of a 2-chunk upload. -/
theorem putChunk_chunkReceived_progress_witness :
    (50 : ℚ) = ((1 : Nat) : ℚ) / ((2 : Nat) : ℚ) * 100 ∧ (1 : Nat) ≠ 2 := by
  have hput : putChunk none 0 [5] 2 "g" =
      (ChunkResponse.chunkReceived 0 2 1 50, some [(0, [5])]) := by
    simp only [putChunk, upsert, Option.getD, List.length]
    norm_num
  have h := putChunk_chunkReceived_progress.1 none 0 [5] 2 "g" 0 2 1 50
    (some [(0, [5])]) hput
  exact ⟨h.1, h.2.2.2⟩

/-! ## ProcessingRecord status store (claims C2, C6, C10)

A `ProcessingRecord` (spec section 3) is the dict stored in
`processing_status`; the claims only concern its `status` and `progress`
fields, so `message` and `start_time` are dropped from the embedding.
Every assignment to `processing_status[processing_id]` in the source is
one `WriteOp` constructor below. -/

/-- The status values used by src/server.py. -/
inductive PStatus where
  | uploading
  | processing
  | complete
  | error
  | cancelled
deriving DecidableEq

/-- A processing record restricted to the claim-relevant fields. -/
structure PRecord where
  status : PStatus
  progress : ℚ
deriving DecidableEq

/-- Line 265: `min(50, (total_size / file.size) * 50) if file.size > 0
else 50`. -/
def uploadProgressVal (fileSize totalSize : Nat) : ℚ :=
  if 0 < fileSize then min 50 ((totalSize : ℚ) / (fileSize : ℚ) * 50) else 50

/-- Every write the source performs on `processing_status[processing_id]`,
one constructor per assignment site. -/
inductive WriteOp where
  | initRecord
  | uploadProgress (fileSize totalSize : Nat)
  | startProcessing
  | excelSheet (i n : Nat)
  | dataframeAnalyze
  | dataframeInsights
  | dataframeComplete
  | daskProgress
  | csvChunk (chunksProcessed : Nat)
  | jsonProgress (lineNum : Nat)
  | pipelineError
  | cancelRecord
deriving DecidableEq

/-- Effect of one write on the (possibly absent) record.
`initRecord` (line 250) and `pipelineError` (lines 298, 1378) assign a
whole fresh dict; `cancelRecord` (line 1341) is guarded by a membership
test; the remaining sites mutate an existing record
(lines 266, 275, 361, 422, 443, 459, 554, 596, 642). -/
def applyWrite : WriteOp → Option PRecord → Option PRecord
  | WriteOp.initRecord, _ => some ⟨PStatus.uploading, 0⟩
  | WriteOp.uploadProgress fs ts, r =>
    r.map fun x => { x with progress := uploadProgressVal fs ts }
  | WriteOp.startProcessing, r => r.map fun _ => ⟨PStatus.processing, 50⟩
  | WriteOp.excelSheet i n, r =>
    r.map fun x => { x with progress := 50 + ((i : ℚ) / (n : ℚ)) * 40 }
  | WriteOp.dataframeAnalyze, r => r.map fun x => { x with progress := 70 }
  | WriteOp.dataframeInsights, r => r.map fun x => { x with progress := 90 }
  | WriteOp.dataframeComplete, r => r.map fun _ => ⟨PStatus.complete, 100⟩
  | WriteOp.daskProgress, r => r.map fun x => { x with progress := 70 }
  | WriteOp.csvChunk k, r =>
    r.map fun x => { x with progress := min 90 ((k : ℚ) * 10) }
  | WriteOp.jsonProgress n, r =>
    r.map fun x => { x with progress := min 90 ((n : ℚ) / 100000 * 90) }
  | WriteOp.pipelineError, _ => some ⟨PStatus.error, 0⟩
  | WriteOp.cancelRecord, r => r.map fun _ => ⟨PStatus.cancelled, 0⟩

/-- Terminal statuses per the spec glossary. -/
def isTerminal : PStatus → Bool
  | PStatus.complete => true
  | PStatus.error => true
  | PStatus.cancelled => true
  | _ => false

/-- Status is `uploading` or `processing`. -/
def isActive : PStatus → Bool
  | PStatus.uploading => true
  | PStatus.processing => true
  | _ => false

/-- Status changes allowed by claim C2: stay put, or move along
`uploading → processing → (complete | error)`, or move to `cancelled` from
a non-terminal status. -/
def claimEdgeOK (a b : PStatus) : Bool :=
  decide (a = b) ||
    (decide (a = PStatus.uploading) && decide (b = PStatus.processing)) ||
    (decide (a = PStatus.processing) &&
      (decide (b = PStatus.complete) || decide (b = PStatus.error))) ||
    (!isTerminal a && decide (b = PStatus.cancelled))

/-- Claim C2 on one step: progress may not decrease while the status stays
`uploading`/`processing`, the status may only change along the allowed
edges, and a terminal record never changes status. -/
def claimPairOK : Option PRecord → Option PRecord → Bool
  | some r, some r2 =>
    (if isActive r.status && isActive r2.status
      then decide (r.progress ≤ r2.progress) else true) &&
    claimEdgeOK r.status r2.status &&
    (if isTerminal r.status then decide (r2.status = r.status) else true)
  | _, _ => true

/-- All adjacent pairs of a state trace satisfy claim C2. -/
def pairsOK : List (Option PRecord) → Bool
  | a :: b :: rest => claimPairOK a b && pairsOK (b :: rest)
  | _ => true

/-- The record states reached by a sequence of writes, starting from an
absent record. -/
def recTrace (ops : List WriteOp) : List (Option PRecord) :=
  ops.scanl (fun s op => applyWrite op s) none

/-- Counterexample to claim C2: the realizable operation sequence
init, start-processing, dataframe-complete, cancel ends with
`cancel_processing` (line 1341, which never inspects the current status)
moving a record whose status is the terminal `complete` to `cancelled`, so
the trace violates the claimed transition discipline. -/
theorem processing_record_claim_counterexample :
    pairsOK (recTrace [WriteOp.initRecord, WriteOp.startProcessing,
      WriteOp.dataframeComplete, WriteOp.cancelRecord]) = false ∧
      recTrace [WriteOp.initRecord, WriteOp.startProcessing,
        WriteOp.dataframeComplete, WriteOp.cancelRecord] =
        [none, some ⟨PStatus.uploading, 0⟩, some ⟨PStatus.processing, 50⟩,
          some ⟨PStatus.complete, 100⟩, some ⟨PStatus.cancelled, 0⟩] ∧
      isTerminal PStatus.complete = true := by
  refine ⟨?_, ?_, rfl⟩ <;> decide

theorem uploadProgressVal_nonneg (fs ts : Nat) : 0 ≤ uploadProgressVal fs ts := by
  unfold uploadProgressVal
  by_cases h : 0 < fs
  · rw [if_pos h]
    refine le_min (by norm_num) ?_
    positivity
  · rw [if_neg h]
    norm_num

theorem uploadProgressVal_le (fs ts : Nat) : uploadProgressVal fs ts ≤ 50 := by
  unfold uploadProgressVal
  by_cases h : 0 < fs
  · rw [if_pos h]
    exact min_le_left _ _
  · rw [if_neg h]

theorem uploadProgressVal_mono (fs ts ts2 : Nat) (h : ts ≤ ts2) :
    uploadProgressVal fs ts ≤ uploadProgressVal fs ts2 := by
  unfold uploadProgressVal
  by_cases hfs : 0 < fs
  · simp only [if_pos hfs]
    have hc : (ts : ℚ) ≤ (ts2 : ℚ) := by exact_mod_cast h
    refine min_le_min (le_refl _) ?_
    gcongr
  · simp [if_neg hfs]

theorem pairsOK_cons_scanl (f : Option PRecord → WriteOp → Option PRecord)
    (a b : Option PRecord) (l : List WriteOp) :
    pairsOK (a :: List.scanl f b l) =
      (claimPairOK a b && pairsOK (List.scanl f b l)) := by
  cases l <;> rfl

/-- From a record `(uploading, prev)` with `0 ≤ prev ≤ 50` and `prev` at
most the first upload progress value, the pandas-dataframe pipeline trace
satisfies claim C2 at every step. -/
theorem pairsOK_upload_segment (fileSize : Nat) :
    ∀ (sizes : List Nat) (prev : ℚ), 0 ≤ prev → prev ≤ 50 →
      (∀ s, sizes.head? = some s → prev ≤ uploadProgressVal fileSize s) →
      sizes.Chain' (· ≤ ·) →
      pairsOK (List.scanl (fun s op => applyWrite op s)
        (some ⟨PStatus.uploading, prev⟩)
        (sizes.map (WriteOp.uploadProgress fileSize) ++
          [WriteOp.startProcessing, WriteOp.dataframeAnalyze,
           WriteOp.dataframeInsights, WriteOp.dataframeComplete])) = true := by
  intro sizes
  induction sizes with
  | nil =>
    intro prev h0 h50 _ _
    show pairsOK [some ⟨PStatus.uploading, prev⟩, some ⟨PStatus.processing, 50⟩,
      some ⟨PStatus.processing, 70⟩, some ⟨PStatus.processing, 90⟩,
      some ⟨PStatus.complete, 100⟩] = true
    have hpair : claimPairOK (some ⟨PStatus.uploading, prev⟩)
        (some ⟨PStatus.processing, 50⟩) = true := by
      simp [claimPairOK, claimEdgeOK, isActive, isTerminal, h50]
    rw [show pairsOK [some ⟨PStatus.uploading, prev⟩,
        some ⟨PStatus.processing, 50⟩, some ⟨PStatus.processing, 70⟩,
        some ⟨PStatus.processing, 90⟩, some ⟨PStatus.complete, 100⟩] =
        (claimPairOK (some ⟨PStatus.uploading, prev⟩)
          (some ⟨PStatus.processing, 50⟩) &&
          pairsOK [some ⟨PStatus.processing, 50⟩, some ⟨PStatus.processing, 70⟩,
            some ⟨PStatus.processing, 90⟩, some ⟨PStatus.complete, 100⟩]) from rfl]
    rw [hpair, Bool.true_and]
    decide
  | cons s rest ih =>
    intro prev h0 h50 hfirst hchain
    have hfirstval : prev ≤ uploadProgressVal fileSize s := hfirst s rfl
    simp only [List.map_cons, List.cons_append, List.scanl_cons, List.nil_append]
    rw [pairsOK_cons_scanl]
    have hpair : claimPairOK (some ⟨PStatus.uploading, prev⟩)
        (applyWrite (WriteOp.uploadProgress fileSize s)
          (some ⟨PStatus.uploading, prev⟩)) = true := by
      show claimPairOK (some ⟨PStatus.uploading, prev⟩)
        (some ⟨PStatus.uploading, uploadProgressVal fileSize s⟩) = true
      simp [claimPairOK, claimEdgeOK, isActive, isTerminal, hfirstval]
    rw [hpair, Bool.true_and]
    have hrec := ih (uploadProgressVal fileSize s) (uploadProgressVal_nonneg _ _)
      (uploadProgressVal_le _ _)
      (fun s2 hs2 => by
        rcases rest with _ | ⟨s2h, rest2⟩
        · simp at hs2
        · simp only [List.head?_cons, Option.some.injEq] at hs2
          subst hs2
          exact uploadProgressVal_mono fileSize s _
            (List.chain'_cons.mp hchain).1)
      (by
        rcases rest with _ | ⟨s2h, rest2⟩
        · exact List.chain'_nil
        · exact (List.chain'_cons.mp hchain).2)
    exact hrec

/-- Amended claim C2 (as forced by the counterexample): (i) for the
cancel-free in-memory dataframe pipeline — record creation, upload-phase
progress writes driven by a non-decreasing byte count, the transition to
`processing`, analysis, insights, completion — every step respects the
claimed discipline: progress is non-decreasing while the status is
`uploading`/`processing` and the status moves only along
`uploading → processing → complete`; but (ii) `cancel_processing`
overwrites a record in any status, terminal ones included, with
`cancelled`, and (iii) the fallback chunked-CSV parser writes progress 10
after the transition to `processing` had already set progress 50. -/
theorem processing_record_amended (fileSize : Nat) (sizes : List Nat)
    (hchain : sizes.Chain' (· ≤ ·)) :
    pairsOK (recTrace (WriteOp.initRecord ::
        (sizes.map (WriteOp.uploadProgress fileSize) ++
          [WriteOp.startProcessing, WriteOp.dataframeAnalyze,
           WriteOp.dataframeInsights, WriteOp.dataframeComplete]))) = true ∧
      (∀ r : PRecord, applyWrite WriteOp.cancelRecord (some r) =
        some ⟨PStatus.cancelled, 0⟩) ∧
      applyWrite (WriteOp.csvChunk 1) (some ⟨PStatus.processing, 50⟩) =
        some ⟨PStatus.processing, 10⟩ := by
    refine ⟨?_, fun r => rfl, ?_⟩
    · unfold recTrace
      rw [List.scanl_cons]
      simp only [List.singleton_append]
      rw [pairsOK_cons_scanl]
      rw [show claimPairOK none
        (applyWrite WriteOp.initRecord none) = true from rfl, Bool.true_and]
      exact pairsOK_upload_segment fileSize sizes 0 (le_refl 0) (by norm_num)
        (fun s _ => uploadProgressVal_nonneg fileSize s) hchain
    · simp only [applyWrite, Option.map_some', Nat.cast_one, one_mul]
      norm_num [min_def]

/-- Witness for the amended claim C2 at a concrete pipeline run with
upload byte counts 40 then 80. -/
theorem processing_record_amended_witness :
    pairsOK (recTrace (WriteOp.initRecord ::
        (([40, 80] : List Nat).map (WriteOp.uploadProgress 100) ++
          [WriteOp.startProcessing, WriteOp.dataframeAnalyze,
           WriteOp.dataframeInsights, WriteOp.dataframeComplete]))) = true :=
  (processing_record_amended 100 [40, 80]
    (by norm_num [List.chain'_cons, List.chain'_singleton])).1

/-! ## SSE status stream (`stream_processing_progress`, lines 1239-1280)

The generator polls the status record once per one-second sleep; the
elapsed time at iteration `k` is `k` seconds. It emits a `data:` event
when the polled progress differs from the last emitted progress, breaks
after emitting when the status is `complete` or `error`, and breaks with a
final timeout event once the elapsed time exceeds 600 seconds (first true
at iteration 601). `polls k` is the record the `k`-th poll observes. -/

/-- An SSE event of the stream: a status snapshot or the timeout notice. -/
inductive SEvent where
  | data (r : PRecord)
  | timeout
deriving DecidableEq

/-- The polling loop of `generate_updates` (lines 1246-1269); returns the
emitted events and the number of polls consumed. The fuel argument only
pads the recursion: 602 covers iterations 0..601 and the timeout branch
fires at 601, so the fuel never runs out from `streamRun`. -/
def streamGo (polls : Nat → Option PRecord) : Nat → Nat → ℚ → List SEvent × Nat
  | 0, _, _ => ([], 0)
  | fuel + 1, k, last =>
    match polls k with
    | none => ([], 1)
    | some r =>
      let ev : List SEvent := if r.progress = last then [] else [SEvent.data r]
      let last2 : ℚ := if r.progress = last then last else r.progress
      if r.status = PStatus.complete ∨ r.status = PStatus.error then (ev, 1)
      else if 600 < k then (ev ++ [SEvent.timeout], 1)
      else
        let rest := streamGo polls fuel (k + 1) last2
        (ev ++ rest.1, rest.2 + 1)

/-- One full run of the stream generator: `last_progress` starts at -1
(line 1247). -/
def streamRun (polls : Nat → Option PRecord) : List SEvent × Nat :=
  streamGo polls 602 0 (-1)

/-- Claim C6's termination discipline: on observing the first terminal
status (complete, error or cancelled) at poll `k`, the stream stops there
(consuming exactly `k + 1` polls). -/
def stopsAtFirstTerminal (polls : Nat → Option PRecord) : Prop :=
  ∀ k, k ≤ 601 →
    (∀ j, j < k → ∃ r, polls j = some r ∧ isTerminal r.status = false) →
    (∃ r, polls k = some r ∧ isTerminal r.status = true) →
    (streamRun polls).2 = k + 1

set_option maxRecDepth 40000 in
/-- Counterexample to claim C6: a record cancelled from the start is
terminal at poll 0, yet the loop (line 1261 checks only `complete` and
`error`) keeps polling for all 602 iterations and ends with a timeout
event instead of stopping. -/
theorem stream_cancelled_counterexample :
    ¬ stopsAtFirstTerminal (fun _ => some ⟨PStatus.cancelled, 0⟩) ∧
      (streamRun (fun _ => some ⟨PStatus.cancelled, 0⟩)).2 = 602 ∧
      (streamRun (fun _ => some ⟨PStatus.cancelled, 0⟩)).1.getLast? =
        some SEvent.timeout := by
  have hrun : (streamRun (fun _ => some ⟨PStatus.cancelled, 0⟩)).2 = 602 := by
    rfl
  have hlast : (streamRun (fun _ => some ⟨PStatus.cancelled, 0⟩)).1.getLast? =
      some SEvent.timeout := by
    rfl
  refine ⟨?_, hrun, hlast⟩
  intro h
  have h0 := h 0 (by norm_num) (fun j hj => absurd hj (by omega))
    ⟨⟨PStatus.cancelled, 0⟩, rfl, rfl⟩
  rw [hrun] at h0
  exact absurd h0 (by norm_num)

/-- The progress values carried by the `data:` status events, in order. -/
def dataProgresses : List SEvent → List ℚ
  | [] => []
  | SEvent.data r :: rest => r.progress :: dataProgresses rest
  | SEvent.timeout :: rest => dataProgresses rest

theorem streamGo_stop (polls : Nat → Option PRecord) (kT : Nat)
    (hkT : kT ≤ 601)
    (hpre : ∀ j, j < kT → ∃ r, polls j = some r ∧
      ¬(r.status = PStatus.complete ∨ r.status = PStatus.error))
    (r : PRecord) (hr : polls kT = some r)
    (hterm : r.status = PStatus.complete ∨ r.status = PStatus.error) :
    ∀ fuel k, fuel + k = 602 → k ≤ kT → ∀ last : ℚ,
      (streamGo polls fuel k last).2 = kT - k + 1 := by
  intro fuel
  induction fuel with
  | zero =>
    intro k hk hkkT last
    exfalso
    omega
  | succ fuel ih =>
    intro k hk hkkT last
    by_cases hke : k = kT
    · subst hke
      simp only [streamGo, hr]
      rw [if_pos hterm]
      show 1 = k - k + 1
      omega
    · have hklt : k < kT := by omega
      obtain ⟨r2, hr2, hnt2⟩ := hpre k hklt
      simp only [streamGo, hr2]
      rw [if_neg hnt2, if_neg (by omega : ¬ 600 < k)]
      show (streamGo polls fuel (k + 1)
        (if r2.progress = last then last else r2.progress)).2 + 1 = kT - k + 1
      rw [ih (k + 1) (by omega) (by omega) _]
      omega

theorem streamGo_chain (polls : Nat → Option PRecord) :
    ∀ (fuel k : Nat) (last : ℚ),
      List.Chain' (· ≠ ·) (last :: dataProgresses (streamGo polls fuel k last).1) := by
  intro fuel
  induction fuel with
  | zero =>
    intro k last
    simp [streamGo, dataProgresses]
  | succ fuel ih =>
    intro k last
    cases hp : polls k with
    | none => simp [streamGo, hp, dataProgresses]
    | some r =>
      simp only [streamGo, hp]
      by_cases hpr : r.progress = last
      · simp only [if_pos hpr]
        by_cases hterm : r.status = PStatus.complete ∨ r.status = PStatus.error
        · rw [if_pos hterm]
          simp [dataProgresses]
        · rw [if_neg hterm]
          by_cases h600 : 600 < k
          · rw [if_pos h600]
            simp [dataProgresses]
          · rw [if_neg h600]
            show List.Chain' (· ≠ ·) (last ::
              dataProgresses ([] ++ (streamGo polls fuel (k + 1) last).1))
            rw [List.nil_append]
            exact ih (k + 1) last
      · simp only [if_neg hpr]
        have hne : last ≠ r.progress := fun hcon => hpr hcon.symm
        by_cases hterm : r.status = PStatus.complete ∨ r.status = PStatus.error
        · rw [if_pos hterm]
          simp [dataProgresses, hne]
        · rw [if_neg hterm]
          by_cases h600 : 600 < k
          · rw [if_pos h600]
            simp [dataProgresses, hne]
          · rw [if_neg h600]
            show List.Chain' (· ≠ ·) (last :: dataProgresses
              ([SEvent.data r] ++ (streamGo polls fuel (k + 1) r.progress).1))
            rw [List.singleton_append]
            rw [show dataProgresses (SEvent.data r ::
              (streamGo polls fuel (k + 1) r.progress).1) =
              r.progress :: dataProgresses
                (streamGo polls fuel (k + 1) r.progress).1 from rfl]
            exact List.chain'_cons.mpr ⟨hne, ih (k + 1) r.progress⟩

set_option maxRecDepth 40000 in
/-- Amended claim C6 (as forced by the counterexample): the stream emits a
status event only when the polled progress differs from the last emitted
progress (consecutive emitted progresses are pairwise different, the first
differing from the initial -1); it terminates right after the first poll
whose status is `complete` or `error`, or after the 600-second timeout —
but a `cancelled` status does not terminate it: the stream then runs all
602 polls to the timeout. -/
theorem stream_gating_and_termination :
    (∀ (polls : Nat → Option PRecord) (kT : Nat), kT ≤ 601 →
      (∀ j, j < kT → ∃ r, polls j = some r ∧
        ¬(r.status = PStatus.complete ∨ r.status = PStatus.error)) →
      ∀ r, polls kT = some r →
        (r.status = PStatus.complete ∨ r.status = PStatus.error) →
        (streamRun polls).2 = kT + 1) ∧
      (∀ polls : Nat → Option PRecord,
        List.Chain' (· ≠ ·) ((-1 : ℚ) :: dataProgresses (streamRun polls).1)) ∧
      (streamRun (fun _ => some ⟨PStatus.cancelled, 30⟩)).2 = 602 := by
  refine ⟨?_, ?_, rfl⟩
  · intro polls kT hkT hpre r hr hterm
    have := streamGo_stop polls kT hkT hpre r hr hterm 602 0 (by omega)
      (by omega) (-1)
    rw [show (streamRun polls).2 = (streamGo polls 602 0 (-1)).2 from rfl, this]
    omega
  · intro polls
    exact streamGo_chain polls 602 0 (-1)

/-- Witness for the amended claim C6: a record that is `processing` at
poll 0 and `complete` at poll 1 stops the stream after two polls. -/
theorem stream_gating_and_termination_witness :
    (streamRun (fun k => if k = 0 then some ⟨PStatus.processing, 10⟩
      else some ⟨PStatus.complete, 100⟩)).2 = 1 + 1 := by
  refine stream_gating_and_termination.1 _ 1 (by norm_num) ?_
    ⟨PStatus.complete, 100⟩ rfl (Or.inl rfl)
  intro j hj
  have hj0 : j = 0 := by omega
  subst hj0
  exact ⟨⟨PStatus.processing, 10⟩, rfl, by simp⟩

/-- GET /api/upload/stream/:id (lines 1241-1244): an unknown processing id
is rejected with HTTP 404 before the event generator is ever created. -/
def streamEndpoint (store : Dict PRecord) (pid : Nat)
    (polls : Nat → Option PRecord) : Except (Nat × String) (List SEvent × Nat) :=
  if pid ∈ keysOf store then Except.ok (streamRun polls)
  else Except.error (404, "Processing ID not found")

/-- Claim C10: for a processing id absent from the status store, the
streaming endpoint fails with the 404 not-found error and produces no
event stream at all. -/
theorem stream_unknown_id_404 (store : Dict PRecord) (pid : Nat)
    (polls : Nat → Option PRecord) (h : lookupKey store pid = none) :
    streamEndpoint store pid polls =
      Except.error (404, "Processing ID not found") := by
  unfold streamEndpoint
  rw [if_neg ((lookupKey_eq_none_iff store pid).mp h)]

/-- Witness for claim C10 with an empty store and processing id 7. -/
theorem stream_unknown_id_404_witness :
    streamEndpoint [] 7 (fun _ => none) =
      Except.error (404, "Processing ID not found") :=
  stream_unknown_id_404 [] 7 (fun _ => none) rfl

/-! ## JSON-Lines streaming (`_stream_large_json`, lines 626-671; size
dispatch in `_process_json_file`, lines 386-414)

A line of the file is classified by what the source does with it: blank
after `strip()`, successfully parsed by `json.loads`, or malformed
(`json.JSONDecodeError`, skipped by the `continue` of line 655). -/

/-- Classification of one line of a JSON-Lines file. -/
inductive JLine where
  | blank
  | parsed
  | malformed
deriving DecidableEq

/-- Events yielded by `_stream_large_json`: the periodic progress report
(lines 647-652) and the final completion report (lines 659-665). -/
inductive JEvent where
  | progress (linesProcessed objectsParsed : Nat) (progressVal : ℚ)
  | complete (totalLines parsedObjects : Nat)
deriving DecidableEq

/-- The line loop of `_stream_large_json`: `n0` lines already read and
`parsed` objects already parsed. A progress event fires only on a line
that parses successfully and whose 1-based number is a multiple of
10000; the loop always ends with one `complete` event carrying the final
line and object counts. -/
def streamJsonGo : List JLine → Nat → Nat → List JEvent
  | [], lineCount, parsed => [JEvent.complete lineCount parsed]
  | l :: rest, n0, parsed =>
    match l with
    | JLine.blank => streamJsonGo rest (n0 + 1) parsed
    | JLine.malformed => streamJsonGo rest (n0 + 1) parsed
    | JLine.parsed =>
      if (n0 + 1) % 10000 = 0 then
        JEvent.progress (n0 + 1) (parsed + 1)
            (min 90 (((n0 + 1 : Nat) : ℚ) / 100000 * 90)) ::
          streamJsonGo rest (n0 + 1) (parsed + 1)
      else streamJsonGo rest (n0 + 1) (parsed + 1)

/-- `_stream_large_json` over the whole file. -/
def streamLargeJson (lines : List JLine) : List JEvent :=
  streamJsonGo lines 0 0

/-- Result of `_process_json_file`: a file under 50MB is parsed as one
document, otherwise it is streamed as JSON-Lines. -/
inductive JsonResult where
  | document
  | streamed (events : List JEvent)
deriving DecidableEq

/-- The size dispatch of `_process_json_file` (line 391). -/
def processJsonFile (size : Nat) (lines : List JLine) : JsonResult :=
  if size < 50 * 1024 * 1024 then JsonResult.document
  else JsonResult.streamed (streamLargeJson lines)

/-- Recognizer of the final completion event. -/
def isCompleteEvent : JEvent → Bool
  | JEvent.complete _ _ => true
  | _ => false

/-- Number of lines that parse successfully. -/
def countParsed (lines : List JLine) : Nat :=
  lines.countP (fun l => decide (l = JLine.parsed))

theorem streamJsonGo_spec :
    ∀ (lines : List JLine) (n p : Nat),
      ∃ pre, streamJsonGo lines n p =
          pre ++ [JEvent.complete (n + lines.length) (p + countParsed lines)] ∧
        ∀ e ∈ pre, isCompleteEvent e = false := by
  intro lines
  induction lines with
  | nil =>
    intro n p
    refine ⟨[], ?_, by simp⟩
    simp [streamJsonGo, countParsed]
  | cons l rest ih =>
    intro n p
    cases l with
    | blank =>
      obtain ⟨pre, h1, h2⟩ := ih (n + 1) p
      refine ⟨pre, ?_, h2⟩
      rw [show streamJsonGo (JLine.blank :: rest) n p =
        streamJsonGo rest (n + 1) p from rfl, h1]
      have hlen : n + 1 + rest.length = n + (JLine.blank :: rest).length := by
        simp [List.length_cons]
        omega
      have hcnt : countParsed rest = countParsed (JLine.blank :: rest) := by
        simp [countParsed, List.countP_cons]
      rw [hlen, hcnt]
    | malformed =>
      obtain ⟨pre, h1, h2⟩ := ih (n + 1) p
      refine ⟨pre, ?_, h2⟩
      rw [show streamJsonGo (JLine.malformed :: rest) n p =
        streamJsonGo rest (n + 1) p from rfl, h1]
      have hlen : n + 1 + rest.length = n + (JLine.malformed :: rest).length := by
        simp [List.length_cons]
        omega
      have hcnt : countParsed rest = countParsed (JLine.malformed :: rest) := by
        simp [countParsed, List.countP_cons]
      rw [hlen, hcnt]
    | parsed =>
      obtain ⟨pre, h1, h2⟩ := ih (n + 1) (p + 1)
      have hlen : n + 1 + rest.length = n + (JLine.parsed :: rest).length := by
        simp [List.length_cons]
        omega
      have hcnt : p + 1 + countParsed rest = p + countParsed (JLine.parsed :: rest) := by
        simp [countParsed, List.countP_cons]
        omega
      by_cases hm : (n + 1) % 10000 = 0
      · refine ⟨JEvent.progress (n + 1) (p + 1)
          (min 90 (((n + 1 : Nat) : ℚ) / 100000 * 90)) :: pre, ?_, ?_⟩
        · rw [show streamJsonGo (JLine.parsed :: rest) n p =
            (if (n + 1) % 10000 = 0 then
              JEvent.progress (n + 1) (p + 1)
                  (min 90 (((n + 1 : Nat) : ℚ) / 100000 * 90)) ::
                streamJsonGo rest (n + 1) (p + 1)
            else streamJsonGo rest (n + 1) (p + 1)) from rfl]
          rw [if_pos hm, h1, ← hlen, ← hcnt]
          simp
        · intro e he
          rcases List.mem_cons.mp he with he | he
          · subst he
            rfl
          · exact h2 e he
      · refine ⟨pre, ?_, h2⟩
        rw [show streamJsonGo (JLine.parsed :: rest) n p =
          (if (n + 1) % 10000 = 0 then
            JEvent.progress (n + 1) (p + 1)
                (min 90 (((n + 1 : Nat) : ℚ) / 100000 * 90)) ::
              streamJsonGo rest (n + 1) (p + 1)
          else streamJsonGo rest (n + 1) (p + 1)) from rfl]
        rw [if_neg hm, h1, ← hlen, ← hcnt]

/-- Claim C7: a JSON file of at least 50MB is processed as JSON-Lines;
whatever the mix of blank, parsed and malformed lines (malformed lines are
skipped, never fatal), the event stream contains exactly one `complete`
event, it is the last event, and it reports `total_lines` equal to the
number of lines and `parsed_objects` equal to the number of successfully
parsed lines. -/
theorem json_lines_stream_counts (size : Nat) (lines : List JLine)
    (hsize : 50 * 1024 * 1024 ≤ size) :
    processJsonFile size lines = JsonResult.streamed (streamLargeJson lines) ∧
      (streamLargeJson lines).getLast? =
        some (JEvent.complete lines.length (countParsed lines)) ∧
      (streamLargeJson lines).countP isCompleteEvent = 1 := by
  have hnot : ¬ (size < 50 * 1024 * 1024) := by omega
  obtain ⟨pre, h1, h2⟩ := streamJsonGo_spec lines 0 0
  refine ⟨by simp [processJsonFile, hnot], ?_, ?_⟩
  · rw [show streamLargeJson lines = streamJsonGo lines 0 0 from rfl, h1]
    rw [List.getLast?_concat]
    simp
  · rw [show streamLargeJson lines = streamJsonGo lines 0 0 from rfl, h1]
    rw [List.countP_append]
    have hz : pre.countP isCompleteEvent = 0 := by
      rw [List.countP_eq_zero]
      intro e he
      simp [h2 e he]
    rw [hz]
    simp [List.countP_cons, isCompleteEvent]

/-- Witness for claim C7: a 3-line JSON-Lines file at exactly 50MB with
one malformed line reports `total_lines = 3`, `parsed_objects = 2`. -/
theorem json_lines_stream_counts_witness :
    processJsonFile 52428800 [JLine.parsed, JLine.malformed, JLine.parsed] =
        JsonResult.streamed
          (streamLargeJson [JLine.parsed, JLine.malformed, JLine.parsed]) ∧
      (streamLargeJson [JLine.parsed, JLine.malformed, JLine.parsed]).getLast? =
        some (JEvent.complete 3 2) ∧
      (streamLargeJson
        [JLine.parsed, JLine.malformed, JLine.parsed]).countP isCompleteEvent = 1 := by
  have h := json_lines_stream_counts 52428800
    [JLine.parsed, JLine.malformed, JLine.parsed] (by norm_num)
  simpa [countParsed, List.countP_cons] using h

end FlexBi
